import Mathlib

/-!
# Verification of `Simple predictive models/savedata.ipynb`

Shallow embedding of the notebook's pure logic.

* Calendar dates are modelled as their proleptic Gregorian ordinals
  (Python `date.toordinal()`), as integers.  `timedelta(x)` addition is
  integer addition and `(end - start).days` is integer subtraction, so the
  date arithmetic of the notebook translates exactly.  For the concrete
  dates appearing in the claims: 2020-01-01 has ordinal 737425, …,
  2020-01-10 has ordinal 737434.
* `find_missing_dates` (cell 4) is embedded as an `Option`-returning
  function: `none` models the uncaught `IndexError` raised by
  `dates_list[0]` / `dates_list[-1]` on an empty input.
* `save_data` (cell 6) performs only filesystem writes; it is embedded as
  a pure function returning the list of write effects (one `WrittenFile`
  per `to_csv` call, recording the path and the keyword arguments of the
  call together with the produced file content).
* The reporting loop (cell 5) assigns `misssing` but branches on the
  distinct enclosing-scope variable `missing`; the embedding keeps the two
  names separate, threading `missing` as an unmodified parameter.
-/

namespace SaveData

/-- Insertion of an integer into an ascending list, keeping it ascending. -/
def insertSorted (a : Int) : List Int → List Int
  | [] => [a]
  | b :: bs => if a ≤ b then a :: b :: bs else b :: insertSorted a bs

/-- Python `sorted` on a collection of integers (insertion sort; the inputs it
is applied to below are duplicate-free, for which any correct sort agrees). -/
def pySorted (l : List Int) : List Int := l.foldr insertSorted []

/-- Embedding of cell 4 of the notebook:

```python
def find_missing_dates(dates):
    dates_list = list(dates)
    start, end = dates_list[0], dates_list[-1]
    completed_dates = set(start + timedelta(x) for x in range((end - start).days))
    missing = set(dates_list) - completed_dates
    return sorted(missing)
```

`none` models the uncaught `IndexError` on an empty input.  Python
`range(n)` is empty for `n ≤ 0`, which `Int.toNat` reproduces.  The set
difference is taken, as in the source, with `set(dates_list)` on the left:
duplicate-free elements of `dates_list` that do not lie in
`completed_dates`, returned in ascending order. -/
def find_missing_dates (dates : List Int) : Option (List Int) :=
  match dates with
  | [] => none
  | d :: ds =>
    let dates_list := d :: ds
    let start : Int := d
    let «end» : Int := dates_list.getLast (List.cons_ne_nil d ds)
    let completed_dates : List Int :=
      (List.range ((«end» - start).toNat)).map (fun x : Nat => start + (x : Int))
    let missing : List Int :=
      dates_list.dedup.filter (fun a => !(completed_dates.contains a))
    some (pySorted missing)

end SaveData

namespace SaveData

/-- One line of output of the reporting loop of cell 5: either the
"following days are missing" message with the printed list, or the
"there are no missing days" message. -/
inductive Report where
  | missingDays (id_i : Nat) (days : List Int)
  | noMissingDays (id_i : Nat)
  deriving DecidableEq

/-- Embedding of the reporting loop of cell 5:

```python
for id_i in ids:
    data = id2data[id_i]
    misssing = find_missing_dates(data.mess_datum)
    if missing:
        print("For station_id = %d following days are missing:" % id_i)
        print(missing)
    else:
        print("For station_id = %d there are no missing days." % id_i)
```

The loop assigns `misssing` (three s's) but branches on — and prints —
the distinct variable `missing`, which the loop never assigns; it can
only hold a value left over in the enclosing scope, passed here as the
parameter `missing` and threaded through unchanged.  Python truthiness of
a list is non-emptiness.  `none` models an uncaught exception from
`find_missing_dates` aborting the loop. -/
def reporting_loop (missing : List Int) : List (Nat × List Int) → Option (List Report)
  | [] => some []
  | (id_i, data) :: rest =>
    match find_missing_dates data with
    | none => none
    | some misssing =>
      let line := if missing.isEmpty then Report.noMissingDays id_i
        else Report.missingDays id_i missing
      match reporting_loop missing rest with
      | none => none
      | some reports => some (line :: reports)

/-- A cell of a delimited file, as its character sequence. -/
abbrev Cell := List Char

/-- A pandas `DataFrame` as it reaches `to_csv`: the column names and the
rows, each cell already rendered to text. -/
structure Table where
  columns : List Cell
  rows : List (List Cell)
  deriving DecidableEq

/-- Join cells with a separator character (Python `sep.join`). -/
def joinCells (sep : Char) : List Cell → List Char
  | [] => []
  | [c] => c
  | c :: cs => c ++ sep :: joinCells sep cs

/-- `DataFrame.to_csv(..., sep=';', columns=data.columns, index=False)` as
called in cell 6: the header line (header defaults to true) followed by one
line per row, cells joined by the separator, each line terminated by a
newline, and no index column prepended. -/
def to_csv (data : Table) : List Char :=
  ((data.columns :: data.rows).map (fun r => joinCells ';' r ++ ['\n'])).flatten

/-- Split a character sequence at every occurrence of `sep`
(accumulator-style Python `str.split(sep)`). -/
def splitOnAux (sep : Char) : List Char → List Char → List (List Char)
  | [], acc => [acc.reverse]
  | c :: cs, acc =>
    if c = sep then acc.reverse :: splitOnAux sep cs []
    else splitOnAux sep cs (c :: acc)

/-- Python `str.split(sep)`. -/
def splitSep (sep : Char) (s : List Char) : List (List Char) :=
  splitOnAux sep s []

/-- `pandas.read_csv(..., sep=';')` on the file content: split into lines,
drop the blank line produced by the trailing newline (pandas skips blank
lines), read the first line as the header and the rest as the rows. -/
def read_csv (content : List Char) : Table :=
  let lines := splitSep '\n' content
  let lines := if lines.getLast? = some [] then lines.dropLast else lines
  match lines with
  | [] => ⟨[], []⟩
  | h :: t => ⟨splitSep ';' h, t.map (fun r => splitSep ';' r)⟩

/-- One filesystem write performed by `save_data`: the path written, the
keyword arguments of the `to_csv` call, and the content produced. -/
structure WrittenFile where
  path : String
  sep : Char
  header : Bool
  index : Bool
  content : List Char
  deriving DecidableEq

/-- The default value of the `path` parameter of `save_data`. -/
def save_data_default_path : String := "./data/"

/-- Embedding of cell 6 of the notebook:

```python
def save_data(datadict, path = './data/'):
    for id_i in datadict.keys():
        name = 'station_' + str(id_i)
        full_path = path + name
        data = datadict[id_i]
        data.to_csv(full_path, sep = ';', columns = data.columns, index = False,)
```

The dictionary is modelled as an association list in insertion order
(Python dicts iterate in insertion order); the function's value is the
list of write effects, in order — the Python function returns `None`,
i.e. it has no return value beyond these effects. -/
def save_data (datadict : List (Nat × Table)) (path : String) : List WrittenFile :=
  datadict.map (fun p =>
    let name := "station_" ++ toString p.1
    let full_path := path ++ name
    let data := p.2
    ⟨full_path, ';', true, false, to_csv data⟩)

end SaveData

namespace SaveData

/-- Membership in an insertion-sort insertion. -/
theorem mem_insertSorted {x a : Int} : ∀ {l : List Int},
    x ∈ insertSorted a l ↔ x = a ∨ x ∈ l := by
  intro l
  induction l with
  | nil => simp [insertSorted]
  | cons b bs ih =>
    by_cases h : a ≤ b
    · simp [insertSorted, h]
    · simp [insertSorted, h, ih]
      tauto

/-- Membership in `pySorted`. -/
theorem mem_pySorted {x : Int} : ∀ {l : List Int}, x ∈ pySorted l ↔ x ∈ l := by
  intro l
  induction l with
  | nil => simp [pySorted]
  | cons b bs ih =>
    simp only [pySorted, List.foldr_cons] at *
    rw [mem_insertSorted, ih]
    simp

end SaveData

namespace SaveData

/-- Splitting a separator-free chunk yields one piece. -/
theorem splitOnAux_of_not_mem {sep : Char} :
    ∀ {xs : List Char}, sep ∉ xs → ∀ acc, splitOnAux sep xs acc = [acc.reverse ++ xs] := by
  intro xs
  induction xs with
  | nil => intro _ acc; simp [splitOnAux]
  | cons c cs ih =>
    intro h acc
    have hc : ¬ c = sep := fun he => h (by simp [he])
    have hcs : sep ∉ cs := fun hm => h (List.mem_cons_of_mem _ hm)
    simp [splitOnAux, hc, ih hcs]

/-- Splitting past a separator-free chunk followed by a separator emits the
chunk and continues. -/
theorem splitOnAux_append_sep {sep : Char} :
    ∀ {xs : List Char}, sep ∉ xs → ∀ acc rest,
      splitOnAux sep (xs ++ sep :: rest) acc =
        (acc.reverse ++ xs) :: splitOnAux sep rest [] := by
  intro xs
  induction xs with
  | nil => intro _ acc rest; simp [splitOnAux]
  | cons c cs ih =>
    intro h acc rest
    have hc : ¬ c = sep := fun he => h (by simp [he])
    have hcs : sep ∉ cs := fun hm => h (List.mem_cons_of_mem _ hm)
    simp [splitOnAux, hc, ih hcs]

/-- Splitting inverts joining for a non-empty list of separator-free cells. -/
theorem splitSep_joinCells {sep : Char} :
    ∀ (c : Cell) (cs : List Cell), sep ∉ c → (∀ x ∈ cs, sep ∉ x) →
      splitSep sep (joinCells sep (c :: cs)) = c :: cs := by
  intro c cs
  induction cs generalizing c with
  | nil => intro hc _; simp [joinCells, splitSep, splitOnAux_of_not_mem hc]
  | cons c2 cs2 ih =>
    intro hc hcs
    have h2 : sep ∉ c2 := hcs c2 (by simp)
    have hrest : ∀ x ∈ cs2, sep ∉ x := fun x hx => hcs x (by simp [hx])
    have key := ih c2 h2 hrest
    simp only [joinCells, splitSep] at key ⊢
    rw [splitOnAux_append_sep hc, key]
    simp

/-- Every character of a join is the separator or a character of a cell. -/
theorem mem_joinCells {sep x : Char} :
    ∀ {cs : List Cell}, x ∈ joinCells sep cs → x = sep ∨ ∃ c ∈ cs, x ∈ c := by
  intro cs
  induction cs with
  | nil => simp [joinCells]
  | cons c cs ih =>
    cases cs with
    | nil =>
      intro h
      exact Or.inr ⟨c, by simp, by simpa [joinCells] using h⟩
    | cons c2 cs2 =>
      intro h
      simp only [joinCells, List.mem_append, List.mem_cons] at h
      rcases h with h | h | h
      · exact Or.inr ⟨c, by simp, h⟩
      · exact Or.inl h
      · rcases ih (by simpa [joinCells] using h) with h' | ⟨c', hc', hx⟩
        · exact Or.inl h'
        · exact Or.inr ⟨c', by simp [hc'], hx⟩

/-- Splitting a concatenation of separator-terminated, separator-free lines
recovers the lines, plus the empty piece after the final separator. -/
theorem splitSep_join_terminated {sep : Char} :
    ∀ {lss : List (List Char)}, (∀ l ∈ lss, sep ∉ l) →
      splitSep sep ((lss.map (fun l => l ++ [sep])).flatten) = lss ++ [[]] := by
  intro lss
  induction lss with
  | nil => intro _; simp [splitSep, splitOnAux]
  | cons l ls ih =>
    intro h
    have hl : sep ∉ l := h l (by simp)
    have hls : ∀ x ∈ ls, sep ∉ x := fun x hx => h x (by simp [hx])
    have key := ih hls
    simp only [splitSep] at key ⊢
    simp only [List.map_cons, List.flatten_cons, List.append_assoc,
      List.singleton_append]
    rw [splitOnAux_append_sep hl, key]
    simp

/-- C5: on the empty date sequence `find_missing_dates` does not return a
value: the element accesses `dates_list[0]`/`dates_list[-1]` raise
(modelled by `none`), and the error propagates uncaught through the
reporting loop, aborting it whatever the surrounding state and the
remaining stations. -/
theorem find_missing_dates_empty_input_error :
    find_missing_dates [] = none ∧
    ∀ (missing : List Int) (id_i : Nat) (rest : List (Nat × List Int)),
      reporting_loop missing ((id_i, []) :: rest) = none := by
  constructor
  · rfl
  · intro missing id_i rest
    rfl

/-- C10: every date in the result of `find_missing_dates` is an element of
the input sequence itself (the code subtracts the completed range from the
supplied set, so the result is drawn from the supplied dates); and for an
ascending input whose last date is strictly after its first, the last date
is in the result, which is therefore non-empty. -/
theorem find_missing_dates_result_from_input (d : Int) (ds : List Int) (res : List Int)
    (hres : find_missing_dates (d :: ds) = some res) :
    (∀ x ∈ res, x ∈ d :: ds) ∧
    (List.Chain' (fun a b => a ≤ b) (d :: ds) →
      d < (d :: ds).getLast (List.cons_ne_nil d ds) →
      ((d :: ds).getLast (List.cons_ne_nil d ds) ∈ res ∧ res ≠ [])) := by
  simp only [find_missing_dates, Option.some.injEq] at hres
  subst hres
  constructor
  · intro x hx
    rw [mem_pySorted] at hx
    exact List.mem_dedup.mp (List.mem_filter.mp hx).1
  · intro _ hlt
    have hnot : (d :: ds).getLast (List.cons_ne_nil d ds) ∉
        (List.range (((d :: ds).getLast (List.cons_ne_nil d ds) - d).toNat)).map
          (fun x : Nat => d + (x : Int)) := by
      intro hmem
      rcases List.mem_map.mp hmem with ⟨x, hx, hxe⟩
      have hxn := List.mem_range.mp hx
      omega
    have hL : (d :: ds).getLast (List.cons_ne_nil d ds) ∈
        pySorted ((d :: ds).dedup.filter (fun a =>
          !(((List.range (((d :: ds).getLast (List.cons_ne_nil d ds) - d).toNat)).map
            (fun x : Nat => d + (x : Int))).contains a))) := by
      rw [mem_pySorted]
      exact List.mem_filter.mpr
        ⟨List.mem_dedup.mpr (List.getLast_mem _), by simp [hnot]⟩
    exact ⟨hL, List.ne_nil_of_mem hL⟩

/-- Witness for C10 at the concrete input `[2020-01-01, 2020-01-03]`
(ordinals `[737425, 737427]`), whose result is `[737427]`. -/
theorem find_missing_dates_result_from_input_witness :
    (∀ x ∈ [(737427 : Int)], x ∈ [(737425 : Int), 737427]) ∧
      ((737427 : Int) ∈ [(737427 : Int)] ∧ [(737427 : Int)] ≠ []) := by
  have h := find_missing_dates_result_from_input 737425 [737427] [737427] (by decide)
  exact ⟨h.1, h.2 (by simp [List.chain'_cons]) (by decide)⟩

/-- C7: `save_data` on the empty mapping performs no writes and returns
normally (it is a total function of the mapping, evaluating to the empty
effect list for every destination path). -/
theorem save_data_empty_mapping (path : String) : save_data [] path = [] := rfl

/-- C6: `save_data` writes exactly one file per key of the mapping: the
effect list has one entry per key; every written file carries separator
`';'`, header `true`, index `false`, and the path and `to_csv` content of
one of the mapping's entries; and every entry of the mapping has a written
file at path `path ++ "station_" ++ <id>` holding its `to_csv` content. -/
theorem save_data_one_file_per_station (datadict : List (Nat × Table)) (path : String) :
    (save_data datadict path).length = datadict.length ∧
    (∀ f ∈ save_data datadict path,
      f.sep = ';' ∧ f.header = true ∧ f.index = false ∧
      ∃ p ∈ datadict,
        f.path = path ++ ("station_" ++ toString p.1) ∧ f.content = to_csv p.2) ∧
    (∀ p ∈ datadict, ∃ f ∈ save_data datadict path,
      f.path = path ++ ("station_" ++ toString p.1) ∧ f.content = to_csv p.2) := by
  refine ⟨by simp [save_data], ?_, ?_⟩
  · intro f hf
    simp only [save_data, List.mem_map] at hf
    obtain ⟨p, hp, rfl⟩ := hf
    exact ⟨rfl, rfl, rfl, p, hp, rfl, rfl⟩
  · intro p hp
    exact ⟨_, List.mem_map_of_mem _ hp, rfl, rfl⟩

/-- C9: with the enclosing-scope variable `missing` empty (hence falsy, as
in the reference run, whose output shows the "no missing days" message for
every station), the reporting loop never takes the "missing days" branch,
for every list of stations — regardless of whether any station's series
actually has gaps — because the branch condition reads `missing`, which
the loop never assigns (it assigns the distinct variable `misssing`). -/
theorem reporting_loop_branch_never_taken
    (stations : List (Nat × List Int)) (reports : List Report)
    (h : reporting_loop [] stations = some reports) :
    ∀ r ∈ reports, ∃ i, r = Report.noMissingDays i := by
  induction stations generalizing reports with
  | nil =>
    simp only [reporting_loop, Option.some.injEq] at h
    subst h
    simp
  | cons s rest ih =>
    obtain ⟨id_i, data⟩ := s
    simp only [reporting_loop] at h
    cases hf : find_missing_dates data with
    | none => rw [hf] at h; exact absurd h (by simp)
    | some m =>
      rw [hf] at h
      cases hr : reporting_loop [] rest with
      | none => rw [hr] at h; exact absurd h (by simp)
      | some rs =>
        rw [hr] at h
        simp only [List.isEmpty_nil, if_true, Option.some.injEq] at h
        subst h
        intro r hrm
        rcases List.mem_cons.mp hrm with hEq | hmem
        · exact ⟨id_i, hEq⟩
        · exact ih rs hr r hmem

/-- Witness for C9: a single station whose series `[737425, 737427]` does
have a calendar gap (2020-01-02 is absent), yet the loop reports
"no missing days". -/
theorem reporting_loop_branch_never_taken_witness :
    ∃ i, Report.noMissingDays 395 = Report.noMissingDays i :=
  reporting_loop_branch_never_taken [(395, [737425, 737427])]
    [Report.noMissingDays 395] (by decide) (Report.noMissingDays 395) (by decide)

/-- C1 (counter-evaluation): on the dates 2020-01-01 and 2020-01-03
(ordinals 737425 and 737427), where 2020-01-02 (737426) is the one date of
`[first, last)` absent from the input, `find_missing_dates` returns
`[2020-01-03]` — the supplied date lying outside `[first, last)` — not the
absent date `[2020-01-02]`: the code subtracts the completed range from the
supplied set, the reverse of the claimed difference. -/
theorem find_missing_dates_reversed_difference :
    find_missing_dates [737425, 737427] = some [737427] := by
  decide

/-- C2 (counter-evaluation): on the complete, gap-free ascending sequence
2020-01-01, 2020-01-02 (ordinals 737425, 737426) `find_missing_dates`
returns `[2020-01-02]`, not the empty result: the last date never lies in
the half-open completed range, so it always survives the (reversed) set
difference. -/
theorem find_missing_dates_gap_free_nonempty :
    find_missing_dates [737425, 737426] = some [737426] := by
  decide

/-- C3 (counter-evaluation): on the ascending sequence 2020-01-01 …
2020-01-10 (ordinals 737425 … 737434) with only 2020-01-05 (737429)
absent, `find_missing_dates` returns `[2020-01-10]` (ordinal 737434), not
`[2020-01-05]`. -/
theorem find_missing_dates_interior_gap_eval :
    find_missing_dates
      [737425, 737426, 737427, 737428, 737430, 737431, 737432, 737433, 737434]
      = some [737434] := by
  decide

/-- C4 (counter-evaluation): on the sequence 2020-01-01, 2020-01-02,
2020-01-04 (ordinals 737425, 737426, 737428), whose interior date
2020-01-03 is absent, the result of `find_missing_dates` does contain the
last date 2020-01-04 — refuting, at this input, the claim that the result
never contains the last date. -/
theorem find_missing_dates_contains_end_eval :
    (737428 : Int) ∈ (find_missing_dates [737425, 737426, 737428]).getD [] := by
  decide

/-- `read_csv` on a content whose line split is known: the trailing blank
piece is dropped, the first line is the header, the rest are the rows. -/
theorem read_csv_of_split (content : List Char) (h0 : List Char) (t : List (List Char))
    (h : splitSep '\n' content = (h0 :: t) ++ [[]]) :
    read_csv content = ⟨splitSep ';' h0, t.map (fun r => splitSep ';' r)⟩ := by
  unfold read_csv
  rw [h]
  have h1 : ((h0 :: t) ++ [([] : List Char)]).getLast? = some [] :=
    List.getLast?_concat (h0 :: t)
  have h2 : ((h0 :: t) ++ [([] : List Char)]).dropLast = h0 :: t :=
    List.dropLast_concat
  rw [List.cons_append] at h1 h2
  show (match (if (h0 :: (t ++ [[]])).getLast? = some [] then
      (h0 :: (t ++ [[]])).dropLast else h0 :: (t ++ [[]])) with
    | [] => (⟨[], []⟩ : Table)
    | h :: t => ⟨splitSep ';' h, t.map (fun r => splitSep ';' r)⟩) =
    ⟨splitSep ';' h0, t.map (fun r => splitSep ';' r)⟩
  rw [if_pos h1, h2]

/-- C8: round-trip — writing a station's series with the `to_csv` call of
`save_data` (semicolon-delimited, header row, no index) and reading the
file back with `read_csv` reproduces the table, header and rows alike, in
the same order; the cells must be non-empty-row, and free of the separator
and the line terminator, as the textual cells of the numeric measurement
columns are. -/
theorem read_csv_to_csv_roundtrip (t : Table)
    (hcols : t.columns ≠ [])
    (hrows : ∀ r ∈ t.rows, r ≠ [])
    (hcells : ∀ r ∈ t.columns :: t.rows, ∀ c ∈ r, ';' ∉ c ∧ '\n' ∉ c) :
    read_csv (to_csv t) = t := by
  obtain ⟨cols, rows⟩ := t
  have hnl : ∀ l ∈ (cols :: rows).map (joinCells ';'), '\n' ∉ l := by
    intro l hl
    rcases List.mem_map.mp hl with ⟨r, hr, rfl⟩
    intro hmem
    rcases mem_joinCells hmem with h | ⟨c, hc, hx⟩
    · exact absurd h (by decide)
    · exact (hcells r hr c hc).2 hx
  have hcsv : to_csv ⟨cols, rows⟩ =
      (((cols :: rows).map (joinCells ';')).map (fun s => s ++ ['\n'])).flatten := by
    simp [to_csv, List.map_map, Function.comp_def]
  have hsplit : splitSep '\n' (to_csv ⟨cols, rows⟩) =
      (cols :: rows).map (joinCells ';') ++ [[]] := by
    rw [hcsv]
    exact splitSep_join_terminated hnl
  have hhead : ∀ r ∈ cols :: rows, splitSep ';' (joinCells ';' r) = r := by
    intro r hr
    cases r with
    | nil =>
      rcases List.mem_cons.mp hr with h | h
      · exact absurd h.symm hcols
      · exact absurd rfl (hrows [] h)
    | cons c cs =>
      have hc := hcells (c :: cs) hr
      exact splitSep_joinCells c cs ((hc c (by simp)).1)
        (fun x hx => (hc x (by simp [hx])).1)
  have hrowmap : rows.map (fun r => splitSep ';' (joinCells ';' r)) = rows := by
    rw [List.map_congr_left (fun r hr => hhead r (by simp [hr]))]
    exact List.map_id' rows
  rw [read_csv_of_split _ (joinCells ';' cols) (rows.map (joinCells ';'))
    (by rw [hsplit, List.map_cons])]
  refine congrArg₂ Table.mk (hhead cols (by simp)) ?_
  rw [List.map_map]
  simpa [Function.comp_def] using hrowmap

/-- Witness for C8 at a concrete one-column, two-row table. -/
theorem read_csv_to_csv_roundtrip_witness :
    read_csv (to_csv ⟨[['a']], [[['1']], [['2']]]⟩) = ⟨[['a']], [[['1']], [['2']]]⟩ :=
  read_csv_to_csv_roundtrip ⟨[['a']], [[['1']], [['2']]]⟩ (by decide)
    (by decide) (by decide)

end SaveData
